import Mathlib

/-!
Shallow embedding of the action-optimization subsystem of `agent.py`
(the methods `Agent.__init__`, `Agent._forward_q`, `Agent._cem_optimizer`,
`Agent._uniform_optimizer`, `Agent.choose_action` and `Agent.forward`).

Modelling conventions:
* Floating-point scalars are modelled by `F := Option ℚ`: `some q` is a finite
  float and `none` is IEEE NaN.  All arithmetic propagates NaN.  `torch.std`
  uses the unbiased estimator (division by `n - 1`), so the standard deviation
  of a single sample is `0 / 0`, i.e. NaN, exactly as in the source.
* `sqrt` is replaced by an exact-on-perfect-squares rational square root
  (`Nat.sqrt` on the radicand `num * den`); no theorem below depends on the
  value of the square root beyond its sign and its NaN behaviour, mirroring
  the fact that float `sqrt` is itself approximate.
* The Q-network `_forward_q` applies row-wise network layers, so the score of
  row `i` depends only on `hidden[i]` and `action[i]`; it is embedded as an
  opaque per-row scorer `score : H → List F → F` applied index-aligned.
* torch sampling is modelled by injected streams: `torch.normal(mu, std)`
  draws `mu + std * z c d` from an injected standard-normal stream `z`, and
  `Tensor.uniform_(lo, hi)` is an injected stream `u` whose values theorems
  assume to lie in `[lo, hi]`, which is the contract of `uniform_`.
* torch runtime failures (`Tensor.expand` shape mismatch, `torch.topk` with
  `k` larger than the score count, `Tensor.max` over an empty dimension) are
  modelled with `Except OptErr`; an error aborts the whole call, so no partial
  results are returned.
-/

/-- Floating-point scalars: `some q` is a finite value, `none` is NaN. -/
abbrev F := Option ℚ

/-- Float addition with NaN propagation. -/
def fadd : F → F → F
  | some x, some y => some (x + y)
  | _, _ => none

/-- Float multiplication with NaN propagation. -/
def fmul : F → F → F
  | some x, some y => some (x * y)
  | _, _ => none

/-- Float subtraction with NaN propagation. -/
def fsub : F → F → F
  | some x, some y => some (x - y)
  | _, _ => none

/-- `Tensor.clamp(lo, hi)`: NaN passes through, otherwise `min (max x lo) hi`
(torch applies the lower bound first, then the upper bound). -/
def fclamp (lo hi : ℚ) : F → F
  | some x => some (min (max x lo) hi)
  | none => none

/-- Division by a natural count, as used by `mean`/`std` reductions.  A zero
count arises in the source only as `0 / 0` and yields NaN. -/
def fdivN : F → ℕ → F
  | some x, n => if n = 0 then none else some (x / (n : ℚ))
  | none, _ => none

/-- Sum reduction with NaN propagation. -/
def fsum (l : List F) : F := l.foldr fadd (some 0)

/-- `Tensor.mean(dim)` along one column. -/
def fmean (l : List F) : F := fdivN (fsum l) l.length

/-- Rational stand-in for float `sqrt` on nonnegative input: writing
`q = num / den`, its square root is `sqrt (num * den) / den`, computed with
`Nat.sqrt` (exact on perfect squares, a floor approximation otherwise). -/
def ratSqrt (q : ℚ) : ℚ := ((Nat.sqrt (q.num.toNat * q.den) : ℚ)) / ((q.den : ℚ))

/-- Float `sqrt`: NaN on NaN and on negative input, nonnegative otherwise. -/
def fsqrt : F → F
  | some x => if x < 0 then none else some (ratSqrt x)
  | none => none

/-- Unbiased sample variance along one column (`torch.std` default): the sum
of squared deviations from the column mean divided by `n - 1`, hence NaN for a
single sample. -/
def fvarU (l : List F) : F :=
  fdivN (fsum (l.map (fun x => fmul (fsub x (fmean l)) (fsub x (fmean l))))) (l.length - 1)

/-- `torch.std(dim)` with the default unbiased estimator. -/
def fstdU (l : List F) : F := fsqrt (fvarU l)

/-- The comparison order used by `torch.topk` / `Tensor.max`: NaN sorts as the
greatest value. -/
def fleB : F → F → Bool
  | _, none => true
  | none, some _ => false
  | some x, some y => decide (x ≤ y)

/-- Strict version of `fleB`. -/
def fltB (a b : F) : Bool := fleB a b && !(fleB b a)

/-- Index of the first maximal score (`q.max(0)[1]`, and the selection step
repeated inside `torch.topk`). -/
def fMaxIdx : List F → ℕ
  | [] => 0
  | x :: xs =>
    if xs = [] then 0
    else
      let m := fMaxIdx xs
      if fltB x (xs.getD m none) then m + 1 else 0

/-- Pair each score with its original position, as `torch.topk` tracks source
indices while selecting. -/
def withIdx : ℕ → List F → List (ℕ × F)
  | _, [] => []
  | n, x :: t => (n, x) :: withIdx (n + 1) t

/-- Indices of the `k` largest scores in descending order (`torch.topk`
ordering; ties resolved toward the earlier index). -/
def topkIdx : ℕ → List (ℕ × F) → List ℕ
  | 0, _ => []
  | _ + 1, [] => []
  | k + 1, p :: l =>
    let m := fMaxIdx ((p :: l).map Prod.snd)
    ((p :: l).getD m (0, none)).1 :: topkIdx k ((p :: l).eraseIdx m)

/-- The torch runtime errors the optimizers can hit. -/
inductive OptErr where
  /-- `Tensor.expand(num_cem, -1, -1, -1)` on a batch that is neither `1` nor
  `num_cem`. -/
  | expandMismatch
  /-- `torch.topk(q, k)` with `k` greater than the number of scores. -/
  | topkTooLarge
  /-- `q.max(0)` over an empty candidate dimension. -/
  | emptyMax
  deriving DecidableEq

/-- `torch.topk(q, k)`: the indices of the `k` largest scores; fails when `k`
exceeds the number of scores. -/
def cemTopk (k : ℕ) (qs : List F) : Except OptErr (List ℕ) :=
  if k ≤ qs.length then .ok (topkIdx k (withIdx 0 qs)) else .error .topkTooLarge

/-- The configuration stored by `Agent.__init__` (lines 46-55 of the source):
the constructor records the fields verbatim and performs no validation. -/
structure AgentCfg where
  action_size : ℕ
  num_uniform : ℕ
  num_cem : ℕ
  cem_iter : ℕ
  cem_elite : ℕ
  lo : ℚ
  hi : ℚ

/-- `Agent.__init__`: stores the parameters; it has no checks and cannot
fail. -/
def agentInit (action_size num_uniform num_cem cem_iter cem_elite : ℕ)
    (lo hi : ℚ) : AgentCfg :=
  { action_size := action_size, num_uniform := num_uniform, num_cem := num_cem,
    cem_iter := cem_iter, cem_elite := cem_elite, lo := lo, hi := hi }

/-- The CEM sampling distribution `(mu, std)`, both of shape
`(1, action_size)` in the source. -/
structure CemState where
  mu : List F
  std : List F

/-- One entry of `torch.normal(mu.expand(..), std.expand(..))` via the
reparametrization `mu + std * z` with a standard-normal draw `z`. -/
def gaussDraw (m s : F) (z : ℚ) : F := fadd m (fmul s (some z))

/-- The candidate matrix of one CEM iteration:
`torch.normal(mu.expand(*size), std.expand(*size)).clamp(*self.bounds)`. -/
def cemActions (cfg : AgentCfg) (z : ℕ → ℕ → ℚ) (s : CemState) : List (List F) :=
  (List.range cfg.num_cem).map (fun c =>
    (List.range cfg.action_size).map (fun d =>
      fclamp cfg.lo cfg.hi (gaussDraw (s.mu.getD d none) (s.std.getD d none) (z c d))))

/-- One column of the elite matrix `action[topk]`. -/
def column (rows : List (List F)) (d : ℕ) : List F := rows.map (fun r => r.getD d none)

/-- `mu = action[topk].mean(dim=0)` and `std = action[topk].std(dim=0)`. -/
def statsOf (cfg : AgentCfg) (elite : List (List F)) : CemState :=
  { mu := (List.range cfg.action_size).map (fun d => fmean (column elite d)),
    std := (List.range cfg.action_size).map (fun d => fstdU (column elite d)) }

/-- One iteration of the loop body of `_cem_optimizer` (lines 100-116):
sample, clamp, score in one batched `_forward_q` call, take the top
`cem_elite` scores, and re-estimate `(mu, std)` from the elite rows. -/
def cemStep {H : Type} (cfg : AgentCfg) (score : H → List F → F) (hExp : List H)
    (zt : ℕ → ℕ → ℚ) (s : CemState) : Except OptErr CemState :=
  let actions := cemActions cfg zt s
  let q := (hExp.zip actions).map (fun p => score p.1 p.2)
  match cemTopk cfg.cem_elite q with
  | .error e => .error e
  | .ok idx => .ok (statsOf cfg (idx.map (fun i => actions.getD i [])))

/-- The `for _ in range(self.cem_iter)` loop; `t` numbers the iterations so
each consumes its own slice `z t` of the injected normal stream. -/
def cemLoop {H : Type} (cfg : AgentCfg) (score : H → List F → F) (hExp : List H)
    (z : ℕ → ℕ → ℕ → ℚ) : ℕ → ℕ → CemState → Except OptErr CemState
  | _, 0, s => .ok s
  | t, n + 1, s =>
    match cemStep cfg score hExp (z t) s with
    | .error e => .error e
    | .ok s' => cemLoop cfg score hExp z (t + 1) n s'

/-- `hidden.expand(self.num_cem, -1, -1, -1)` (line 95): broadcasting succeeds
only when the batch dimension is `1` (replication) or already `num_cem`
(no-op); any other batch raises a runtime error. -/
def expandTo {H : Type} : List H → ℕ → Except OptErr (List H)
  | [h], k => .ok (List.replicate k h)
  | l, k => if l.length = k then .ok l else .error .expandMismatch

/-- `mu = torch.zeros(1, action_size)`, `std = torch.ones_like(mu)`. -/
def initCemState (cfg : AgentCfg) : CemState :=
  { mu := List.replicate cfg.action_size (some 0),
    std := List.replicate cfg.action_size (some 1) }

/-- `Agent._cem_optimizer` (lines 85-118): expand the hidden state to
`num_cem` rows, run `cem_iter` refinement iterations from the standard-normal
initial distribution, and return the final `mu`. -/
def cem_optimizer {H : Type} (cfg : AgentCfg) (score : H → List F → F)
    (z : ℕ → ℕ → ℕ → ℚ) (hidden : List H) : Except OptErr (List F) :=
  match expandTo hidden cfg.num_cem with
  | .error e => .error e
  | .ok hExp =>
    match cemLoop cfg score hExp z 0 cfg.cem_iter (initCemState cfg) with
    | .error e => .error e
    | .ok s => .ok s.mu

/-- Candidate `j` of the uniform batch for one state: row `actions[i, j]`,
filled by `uniform_(*self.bounds)` from the injected stream `ui`. -/
def uCand (cfg : AgentCfg) (ui : ℕ → ℕ → ℚ) (j : ℕ) : List F :=
  (List.range cfg.action_size).map (fun d => (some (ui j d) : F))

/-- The body of the per-state loop of `_uniform_optimizer` (lines 140-147):
score the `num_uniform` candidates of state `i` against its replicated hidden
row in one `_forward_q` call and keep `actions[i, q.max(0)[1]]`.  `q.max(0)`
on an empty candidate dimension is a runtime error. -/
def uniformPerState {H : Type} (cfg : AgentCfg) (score : H → List F → F)
    (ui : ℕ → ℕ → ℚ) (h : H) : Except OptErr (List F) :=
  let actions := (List.range cfg.num_uniform).map (uCand cfg ui)
  let q := actions.map (score h)
  if cfg.num_uniform = 0 then .error .emptyMax
  else .ok (actions.getD (fMaxIdx q) [])

/-- The `for i in range(hidden.size(0))` loop of `_uniform_optimizer`; state
`i` consumes its own slice `u i` of the injected uniform stream. -/
def uniformLoop {H : Type} (cfg : AgentCfg) (score : H → List F → F)
    (u : ℕ → ℕ → ℕ → ℚ) : ℕ → List H → Except OptErr (List (List F))
  | _, [] => .ok []
  | i, h :: rest =>
    match uniformPerState cfg score (u i) h with
    | .error e => .error e
    | .ok a =>
      match uniformLoop cfg score u (i + 1) rest with
      | .error e => .error e
      | .ok as => .ok (a :: as)

/-- `Agent._uniform_optimizer` (lines 120-149). -/
def uniform_optimizer {H : Type} (cfg : AgentCfg) (score : H → List F → F)
    (u : ℕ → ℕ → ℕ → ℚ) (hidden : List H) : Except OptErr (List (List F)) :=
  uniformLoop cfg score u 0 hidden

/-- `Agent._forward_q(hidden, action)` (lines 70-83): the network layers act
row-wise, so the score batch pairs `hidden[i]` with `action[i]`. -/
def forward_q {H : Type} (score : H → List F → F) (hidden : List H)
    (action : List (List F)) : List F :=
  (hidden.zip action).map (fun p => score p.1 p.2)

/-- `Agent.choose_action` (lines 151-170): dispatch to `_cem_optimizer` when
`use_cem` (its result is one action of shape `(1, action_size)`), else to
`_uniform_optimizer`. -/
def choose_action {H : Type} (cfg : AgentCfg) (score : H → List F → F)
    (z : ℕ → ℕ → ℕ → ℚ) (u : ℕ → ℕ → ℕ → ℚ) (hidden : List H)
    (use_cem : Bool) : Except OptErr (List (List F)) :=
  if use_cem then (cem_optimizer cfg score z hidden).map (fun m => [m])
  else uniform_optimizer cfg score u hidden

/-- `Agent.forward` (lines 172-189): when `action` is `None`, obtain the
per-state optimal actions from `_uniform_optimizer`, then score them with
`_forward_q`; an explicit `action` batch is scored as given. -/
def forward {H : Type} (cfg : AgentCfg) (score : H → List F → F)
    (u : ℕ → ℕ → ℕ → ℚ) (hidden : List H)
    (action : Option (List (List F))) : Except OptErr (List F) :=
  match action with
  | some a => .ok (forward_q score hidden a)
  | none =>
    match uniform_optimizer cfg score u hidden with
    | .error e => .error e
    | .ok a => .ok (forward_q score hidden a)

/-- One iteration of the cross-entropy method exactly as §4.2 of the spec
states it, for a single state embedding `h`: (a) draw `num_cem` candidates
from the per-dimension Gaussian and clamp every component into `[lo, hi]`;
(b) replicate the single embedding `num_cem` times and score all candidates
in one batched scorer call; (c) select the `cem_elite` highest-scoring
candidates; (d) recompute mean and standard deviation as the per-dimension
sample statistics of the elite set. -/
def cemSpecStep {H : Type} (cfg : AgentCfg) (score : H → List F → F) (h : H)
    (zt : ℕ → ℕ → ℚ) (mean std : List F) : Except OptErr (List F × List F) :=
  let cands := (List.range cfg.num_cem).map (fun c =>
    (List.range cfg.action_size).map (fun d =>
      fclamp cfg.lo cfg.hi (fadd (mean.getD d none) (fmul (std.getD d none) (some (zt c d))))))
  let scores := ((List.replicate cfg.num_cem h).zip cands).map (fun p => score p.1 p.2)
  match cemTopk cfg.cem_elite scores with
  | .error e => .error e
  | .ok idx =>
    let elite := idx.map (fun i => cands.getD i [])
    .ok ((List.range cfg.action_size).map (fun d => fmean (column elite d)),
      (List.range cfg.action_size).map (fun d => fstdU (column elite d)))

/-- Step 2 of the spec's §4.2 algorithm repeated `cem_iter` times, followed by
step 3: return the final mean as the selected action. -/
def cemSpecLoop {H : Type} (cfg : AgentCfg) (score : H → List F → F) (h : H)
    (z : ℕ → ℕ → ℕ → ℚ) : ℕ → ℕ → List F × List F → Except OptErr (List F)
  | _, 0, p => .ok p.1
  | t, n + 1, p =>
    match cemSpecStep cfg score h (z t) p.1 p.2 with
    | .error e => .error e
    | .ok p' => cemSpecLoop cfg score h z (t + 1) n p'

/-- The cross-entropy optimizer exactly as the spec's §4.2 algorithm states
it: initialize `mean = 0`, `std = 1` (dimension `action_size`), iterate
`cem_iter` times, return the final mean. -/
def cemSpecAlg {H : Type} (cfg : AgentCfg) (score : H → List F → F)
    (z : ℕ → ℕ → ℕ → ℚ) (h : H) : Except OptErr (List F) :=
  cemSpecLoop cfg score h z 0 cfg.cem_iter
    (List.replicate cfg.action_size (some 0), List.replicate cfg.action_size (some 1))

/-- A scalar that is a finite float (not NaN) within the action bounds. -/
def InB (lo hi : ℚ) (x : F) : Prop := ∃ q, x = some q ∧ lo ≤ q ∧ q ≤ hi

/-- A scalar that is a finite float (not NaN). -/
def RealB (x : F) : Prop := ∃ q, x = some q

/-- A concrete opaque scorer for closed runs: the Q-value is the first action
component. -/
def scoreHead : Unit → List F → F := fun _ a => a.headD none

/-- A concrete scorer over rational state embeddings: the Q-value is the state
plus the first action component. -/
def scoreState : ℚ → List F → F := fun h a => fadd (some h) (a.headD none)

/-- The zero normal stream, for closed runs. -/
def zZero : ℕ → ℕ → ℕ → ℚ := fun _ _ _ => 0

/-- The zero uniform stream, for closed runs. -/
def uZero : ℕ → ℕ → ℕ → ℚ := fun _ _ _ => 0

/-- A uniform stream whose second candidate dominates, for closed runs. -/
def uHalf : ℕ → ℕ → ℕ → ℚ := fun _ j _ => if j = 0 then 0 else 1 / 2

/-- A uniform stream that differs from `uZero` only for states after the
first, for closed runs. -/
def uSplit : ℕ → ℕ → ℕ → ℚ := fun i _ _ => if i = 0 then 0 else 1 / 4

/-- Decidable equality of optimizer results, used to evaluate closed runs. -/
instance {e a : Type _} [DecidableEq e] [DecidableEq a] : DecidableEq (Except e a) := fun x y =>
  match x, y with
  | .error e1, .error e2 =>
    if h : e1 = e2 then .isTrue (by rw [h]) else .isFalse (fun hc => h (Except.error.inj hc))
  | .ok a1, .ok a2 =>
    if h : a1 = a2 then .isTrue (by rw [h]) else .isFalse (fun hc => h (Except.ok.inj hc))
  | .error _, .ok _ => .isFalse (fun hc => Except.noConfusion hc)
  | .ok _, .error _ => .isFalse (fun hc => Except.noConfusion hc)

/-- The NaN-greatest order is reflexive. -/
theorem fleB_refl (a : F) : fleB a a = true := by
  cases a <;> simp [fleB]

/-- The NaN-greatest order is total. -/
theorem fleB_total (a b : F) : fleB a b = true ∨ fleB b a = true := by
  cases a <;> cases b <;> simp [fleB]
  exact le_total _ _

/-- The NaN-greatest order is transitive. -/
theorem fleB_trans : ∀ {a b c : F}, fleB a b = true → fleB b c = true → fleB a c = true
  | a, _, none, _, _ => by cases a <;> rfl
  | none, some _, some _, h1, _ => by simp [fleB] at h1
  | some _, none, some _, _, h2 => by simp [fleB] at h2
  | none, none, some _, _, h2 => by simp [fleB] at h2
  | some x, some y, some z, h1, h2 => by
    simp only [fleB, decide_eq_true_eq] at h1 h2 ⊢
    exact le_trans h1 h2

/-- `fMaxIdx` returns a valid index on a nonempty list. -/
theorem fMaxIdx_lt : ∀ (qs : List F), qs ≠ [] → fMaxIdx qs < qs.length
  | [], h => absurd rfl h
  | x :: xs, _ => by
    by_cases hxs : xs = []
    · subst hxs; simp [fMaxIdx]
    · have ih := fMaxIdx_lt xs hxs
      simp only [fMaxIdx, if_neg hxs, List.length_cons]
      cases hf : fltB x (xs.getD (fMaxIdx xs) none) <;> simp [hf]
      all_goals omega

/-- The element selected by `fMaxIdx` dominates every entry in the
NaN-greatest order. -/
theorem fMaxIdx_max : ∀ (qs : List F) (j : ℕ), j < qs.length →
    fleB (qs.getD j none) (qs.getD (fMaxIdx qs) none) = true
  | [], j, h => by simp at h
  | x :: xs, j, h => by
    by_cases hxs : xs = []
    · subst hxs
      have hj : j = 0 := by simpa using Nat.lt_one_iff.mp (by simpa using h)
      subst hj
      simpa [fMaxIdx] using fleB_refl x
    · have hm := fMaxIdx_lt xs hxs
      simp only [fMaxIdx, if_neg hxs]
      cases hf : fltB x (xs.getD (fMaxIdx xs) none) with
      | true =>
        simp only [hf, if_true]
        cases j with
        | zero =>
          have hx : fleB x (xs.getD (fMaxIdx xs) none) = true := by
            have := hf
            simp only [fltB, Bool.and_eq_true] at this
            exact this.1
          exact hx
        | succ i =>
          have hi : i < xs.length := by simpa using h
          exact fMaxIdx_max xs i hi
      | false =>
        simp only [hf, Bool.false_eq_true, if_false]
        cases j with
        | zero => exact fleB_refl x
        | succ i =>
          have hi : i < xs.length := by simpa using h
          have h1 := fMaxIdx_max xs i hi
          have h2 : fleB (xs.getD (fMaxIdx xs) none) x = true := by
            rcases fleB_total x (xs.getD (fMaxIdx xs) none) with hx | hx
            · cases hv : fleB (xs.getD (fMaxIdx xs) none) x
              · have hcontra : fltB x (xs.getD (fMaxIdx xs) none) = true := by
                  unfold fltB
                  rw [hx, hv]
                  rfl
                exact Bool.noConfusion (hcontra ▸ hf)
              · rfl
            · exact hx
          exact fleB_trans h1 h2

/-- `getD` at a valid index is a member of the list. -/
theorem getD_mem {α : Type _} : ∀ (l : List α) (i : ℕ) (d : α), i < l.length → l.getD i d ∈ l
  | [], _, _, h => by simp at h
  | x :: t, 0, _, _ => List.mem_cons_self x t
  | x :: t, i + 1, d, h =>
    List.mem_cons_of_mem x (getD_mem t i d (by simpa using h))

/-- `getD` commutes with `map` at a valid index. -/
theorem getD_map_eq {α β : Type _} : ∀ (l : List α) (f : α → β) (i : ℕ) (d : β) (d' : α),
    i < l.length → (l.map f).getD i d = f (l.getD i d')
  | [], _, _, _, _, h => by simp at h
  | _ :: _, _, 0, _, _, _ => rfl
  | _ :: t, f, i + 1, d, d', h => getD_map_eq t f i d d' (by simpa using h)

/-- `getD` on `List.range`. -/
theorem range_getD : ∀ (n i : ℕ), i < n → (List.range n).getD i 0 = i := by
  intro n
  induction n with
  | zero => intro i h; omega
  | succ m ih =>
    intro i h
    rw [List.range_succ_eq_map]
    cases i with
    | zero => rfl
    | succ j =>
      have hj : j < m := by omega
      have hlen : j < (List.range m).length := by simpa using hj
      calc ((0 : ℕ) :: (List.range m).map Nat.succ).getD (j + 1) 0
          = ((List.range m).map Nat.succ).getD j 0 := rfl
        _ = Nat.succ ((List.range m).getD j 0) := getD_map_eq _ _ _ _ 0 hlen
        _ = j + 1 := by rw [ih j hj]

/-- `eraseIdx` at a valid index shortens the list by one. -/
theorem length_eraseIdx_lt {α : Type _} : ∀ (l : List α) (i : ℕ), i < l.length →
    (l.eraseIdx i).length = l.length - 1
  | [], _, h => by simp at h
  | _ :: _, 0, _ => by simp [List.eraseIdx]
  | x :: t, i + 1, h => by
    have ht : i < t.length := by simpa using h
    simp only [List.eraseIdx, List.length_cons]
    rw [length_eraseIdx_lt t i ht]
    omega

/-- Members of `eraseIdx` are members of the original list. -/
theorem mem_eraseIdx {α : Type _} : ∀ (l : List α) (i : ℕ) (x : α), x ∈ l.eraseIdx i → x ∈ l
  | [], i, x, h => by simp [List.eraseIdx] at h
  | a :: t, 0, x, h => List.mem_cons_of_mem a h
  | a :: t, i + 1, x, h => by
    simp only [List.eraseIdx] at h
    rcases List.mem_cons.mp h with h | h
    · subst h; exact List.mem_cons_self x t
    · exact List.mem_cons_of_mem a (mem_eraseIdx t i x h)

/-- `withIdx` preserves the scores. -/
theorem withIdx_map_snd : ∀ (n : ℕ) (l : List F), (withIdx n l).map Prod.snd = l
  | _, [] => rfl
  | n, x :: t => by simp [withIdx, withIdx_map_snd (n + 1) t]

/-- `withIdx` preserves the length. -/
theorem withIdx_length : ∀ (n : ℕ) (l : List F), (withIdx n l).length = l.length
  | _, [] => rfl
  | n, x :: t => by simp [withIdx, withIdx_length (n + 1) t]

/-- Every index recorded by `withIdx` is within range. -/
theorem withIdx_mem_lt : ∀ (n : ℕ) (l : List F) (p : ℕ × F), p ∈ withIdx n l →
    p.1 < n + l.length
  | _, [], p, h => by simp [withIdx] at h
  | n, x :: t, p, h => by
    simp only [withIdx] at h
    rcases List.mem_cons.mp h with h | h
    · subst h; simp
    · have := withIdx_mem_lt (n + 1) t p h
      simp only [List.length_cons]
      omega

/-- `topkIdx` returns exactly `k` indices when `k` is within range. -/
theorem topkIdx_length : ∀ (k : ℕ) (l : List (ℕ × F)), k ≤ l.length → (topkIdx k l).length = k
  | 0, _, _ => rfl
  | k + 1, [], h => by simp at h
  | k + 1, p :: l, h => by
    have hm : fMaxIdx ((p :: l).map Prod.snd) < (p :: l).length := by
      have := fMaxIdx_lt ((p :: l).map Prod.snd) (by simp)
      simpa using this
    have hk : k ≤ ((p :: l).eraseIdx (fMaxIdx ((p :: l).map Prod.snd))).length := by
      rw [length_eraseIdx_lt _ _ hm]
      simp only [List.length_cons] at h ⊢
      omega
    simp only [topkIdx, List.length_cons]
    rw [topkIdx_length k _ hk]

/-- Every index returned by `topkIdx` is an index recorded in the input. -/
theorem topkIdx_mem : ∀ (k : ℕ) (l : List (ℕ × F)) (i : ℕ), i ∈ topkIdx k l →
    ∃ p, p ∈ l ∧ p.1 = i
  | 0, _, _, h => by simp [topkIdx] at h
  | _ + 1, [], _, h => by simp [topkIdx] at h
  | k + 1, p :: l, i, h => by
    have hm : fMaxIdx ((p :: l).map Prod.snd) < (p :: l).length := by
      have := fMaxIdx_lt ((p :: l).map Prod.snd) (by simp)
      simpa using this
    simp only [topkIdx] at h
    rcases List.mem_cons.mp h with h | h
    · exact ⟨(p :: l).getD (fMaxIdx ((p :: l).map Prod.snd)) (0, none),
        getD_mem _ _ _ hm, h.symm⟩
    · obtain ⟨q, hq, hqi⟩ := topkIdx_mem k _ i h
      exact ⟨q, mem_eraseIdx _ _ _ hq, hqi⟩

/-- `torch.topk` succeeds exactly on `k ≤ length`, returning `k` valid
indices. -/
theorem cemTopk_ok (k : ℕ) (qs : List F) (h : k ≤ qs.length) :
    ∃ idx, cemTopk k qs = .ok idx ∧ idx.length = k ∧ ∀ i ∈ idx, i < qs.length := by
  refine ⟨topkIdx k (withIdx 0 qs), by simp [cemTopk, h], ?_, ?_⟩
  · exact topkIdx_length k _ (by rw [withIdx_length]; exact h)
  · intro i hi
    obtain ⟨p, hp, hpi⟩ := topkIdx_mem k _ i hi
    have := withIdx_mem_lt 0 qs p hp
    omega

/-- Clamping a finite value lands inside the bounds whenever `lo ≤ hi`. -/
theorem fclamp_inB {lo hi : ℚ} (h : lo ≤ hi) (q : ℚ) : InB lo hi (fclamp lo hi (some q)) :=
  ⟨min (max q lo) hi, rfl, le_min (le_max_right q lo) h, min_le_right _ _⟩

/-- A NaN-free sum of values in `[lo, hi]` lies in `[n * lo, n * hi]`. -/
theorem fsum_bounds {lo hi : ℚ} : ∀ (l : List F), (∀ x ∈ l, InB lo hi x) →
    ∃ s, fsum l = some s ∧ (l.length : ℚ) * lo ≤ s ∧ s ≤ (l.length : ℚ) * hi
  | [], _ => ⟨0, rfl, by simp, by simp⟩
  | x :: t, h => by
    obtain ⟨q, hq, hq1, hq2⟩ := h x (List.mem_cons_self x t)
    obtain ⟨s, hs, hs1, hs2⟩ := fsum_bounds t (fun y hy => h y (List.mem_cons_of_mem x hy))
    have hsum : fsum (x :: t) = fadd x (fsum t) := rfl
    refine ⟨q + s, ?_, ?_, ?_⟩
    · rw [hsum, hq, hs]; rfl
    · simp only [List.length_cons]
      push_cast
      linarith
    · simp only [List.length_cons]
      push_cast
      linarith

/-- The mean of a nonempty NaN-free batch of values in `[lo, hi]` is a finite
value in `[lo, hi]`. -/
theorem fmean_inB {lo hi : ℚ} (l : List F) (hne : l ≠ []) (h : ∀ x ∈ l, InB lo hi x) :
    InB lo hi (fmean l) := by
  obtain ⟨s, hs, h1, h2⟩ := fsum_bounds l h
  have hn : l.length ≠ 0 := fun hc => hne (List.length_eq_zero.mp hc)
  have hnq : (0 : ℚ) < (l.length : ℚ) := by exact_mod_cast Nat.pos_of_ne_zero hn
  refine ⟨s / (l.length : ℚ), ?_, ?_, ?_⟩
  · simp [fmean, hs, fdivN, hn]
  · rw [le_div_iff₀ hnq]
    linarith
  · rw [div_le_iff₀ hnq]
    linarith

/-- A NaN-free sum of nonnegative values is finite and nonnegative. -/
theorem fsum_nonneg : ∀ (l : List F), (∀ x ∈ l, ∃ q, x = some q ∧ 0 ≤ q) →
    ∃ s, fsum l = some s ∧ 0 ≤ s
  | [], _ => ⟨0, rfl, le_refl 0⟩
  | x :: t, h => by
    obtain ⟨q, hq, hq0⟩ := h x (List.mem_cons_self x t)
    obtain ⟨s, hs, hs0⟩ := fsum_nonneg t (fun y hy => h y (List.mem_cons_of_mem x hy))
    have hsum : fsum (x :: t) = fadd x (fsum t) := rfl
    exact ⟨q + s, by rw [hsum, hq, hs]; rfl, by linarith⟩

/-- A NaN-free sum is finite. -/
theorem fsum_real : ∀ (l : List F), (∀ x ∈ l, RealB x) → ∃ s, fsum l = some s
  | [], _ => ⟨0, rfl⟩
  | x :: t, h => by
    obtain ⟨q, hq⟩ := h x (List.mem_cons_self x t)
    obtain ⟨s, hs⟩ := fsum_real t (fun y hy => h y (List.mem_cons_of_mem x hy))
    have hsum : fsum (x :: t) = fadd x (fsum t) := rfl
    exact ⟨q + s, by rw [hsum, hq, hs]; rfl⟩

/-- The mean of a nonempty NaN-free batch is finite. -/
theorem fmean_real (l : List F) (hne : l ≠ []) (h : ∀ x ∈ l, RealB x) :
    ∃ m, fmean l = some m := by
  obtain ⟨s, hs⟩ := fsum_real l h
  have hn : l.length ≠ 0 := fun hc => hne (List.length_eq_zero.mp hc)
  exact ⟨s / (l.length : ℚ), by simp [fmean, hs, fdivN, hn]⟩

/-- The unbiased variance of a NaN-free batch of at least two values is finite
and nonnegative. -/
theorem fvarU_nonneg (l : List F) (h2 : 2 ≤ l.length) (h : ∀ x ∈ l, RealB x) :
    ∃ v, fvarU l = some v ∧ 0 ≤ v := by
  have hne : l ≠ [] := by
    intro hc
    rw [hc] at h2
    simp at h2
  obtain ⟨m, hm⟩ := fmean_real l hne h
  have hterm : ∀ y ∈ l.map (fun x => fmul (fsub x (fmean l)) (fsub x (fmean l))),
      ∃ q, y = some q ∧ 0 ≤ q := by
    intro y hy
    obtain ⟨x, hx, rfl⟩ := List.mem_map.mp hy
    obtain ⟨q, hq⟩ := h x hx
    exact ⟨(q - m) * (q - m), by rw [hq, hm]; rfl, mul_self_nonneg _⟩
  obtain ⟨s, hs, hs0⟩ := fsum_nonneg _ hterm
  have hn : l.length - 1 ≠ 0 := by omega
  refine ⟨s / ((l.length - 1 : ℕ) : ℚ), ?_, ?_⟩
  · simp [fvarU, hs, fdivN, hn]
  · exact div_nonneg hs0 (by positivity)

/-- The unbiased standard deviation of a NaN-free batch of at least two values
is finite. -/
theorem fstdU_real (l : List F) (h2 : 2 ≤ l.length) (h : ∀ x ∈ l, RealB x) :
    RealB (fstdU l) := by
  obtain ⟨v, hv, hv0⟩ := fvarU_nonneg l h2 h
  exact ⟨ratSqrt v, by simp [fstdU, hv, fsqrt, not_lt.mpr hv0]⟩

/-- The unbiased standard deviation of a single sample is NaN: the source has
no epsilon floor, so `0 / 0` propagates. -/
theorem fstdU_singleton (x : F) : fstdU [x] = none := by
  have h1 : [x].length - 1 = 0 := rfl
  unfold fstdU fvarU
  rw [h1]
  cases hs : fsum ([x].map (fun y => fmul (fsub y (fmean [x])) (fsub y (fmean [x])))) with
  | none => rfl
  | some v => rfl

/-- An in-bounds value is finite. -/
theorem InB_real {lo hi : ℚ} {x : F} (h : InB lo hi x) : RealB x := by
  obtain ⟨q, hq, _, _⟩ := h
  exact ⟨q, hq⟩

/-- The candidate matrix always has `num_cem` rows. -/
theorem cemActions_length (cfg : AgentCfg) (z : ℕ → ℕ → ℚ) (s : CemState) :
    (cemActions cfg z s).length = cfg.num_cem := by
  simp [cemActions]

/-- When the current `(mu, std)` are finite, every sampled-and-clamped
candidate row has `action_size` components, all inside `[lo, hi]`. -/
theorem cemActions_row_inB (cfg : AgentCfg) (z : ℕ → ℕ → ℚ) (s : CemState)
    (hlh : cfg.lo ≤ cfg.hi)
    (hmuLen : s.mu.length = cfg.action_size) (hstdLen : s.std.length = cfg.action_size)
    (hmu : ∀ x ∈ s.mu, RealB x) (hstd : ∀ x ∈ s.std, RealB x) :
    ∀ r ∈ cemActions cfg z s, r.length = cfg.action_size ∧ ∀ x ∈ r, InB cfg.lo cfg.hi x := by
  intro r hr
  obtain ⟨c, hc, rfl⟩ := List.mem_map.mp hr
  constructor
  · simp
  · intro x hx
    obtain ⟨d, hd, rfl⟩ := List.mem_map.mp hx
    have hdA : d < cfg.action_size := List.mem_range.mp hd
    obtain ⟨m, hm⟩ := hmu _ (getD_mem s.mu d none (by rw [hmuLen]; exact hdA))
    obtain ⟨sd, hsd⟩ := hstd _ (getD_mem s.std d none (by rw [hstdLen]; exact hdA))
    rw [hm, hsd]
    have : gaussDraw (some m) (some sd) (z c d) = some (m + sd * z c d) := rfl
    rw [this]
    exact fclamp_inB hlh _

/-- A column of a row matrix has one entry per row. -/
theorem column_length (rows : List (List F)) (d : ℕ) : (column rows d).length = rows.length := by
  simp [column]

/-- Each column entry is `getD` of one of the rows. -/
theorem column_mem {rows : List (List F)} {d : ℕ} {x : F} (hx : x ∈ column rows d) :
    ∃ r, r ∈ rows ∧ x = r.getD d none := by
  obtain ⟨r, hr, hrx⟩ := List.mem_map.mp hx
  exact ⟨r, hr, hrx.symm⟩

/-- One CEM iteration succeeds whenever the hidden batch was expanded to
`num_cem` rows and `cem_elite ≤ num_cem`, and it keeps the distribution
parameters well-shaped: the new `mu` is a per-dimension elite mean, hence
finite and inside `[lo, hi]`; the new `std` is finite provided the elite set
has at least two members (with a single elite the unbiased `std` is NaN). -/
theorem cemStep_ok {H : Type} (cfg : AgentCfg) (score : H → List F → F) (hExp : List H)
    (zt : ℕ → ℕ → ℚ) (s : CemState)
    (hlen : hExp.length = cfg.num_cem)
    (hke : cfg.cem_elite ≤ cfg.num_cem)
    (h1e : 1 ≤ cfg.cem_elite)
    (hlh : cfg.lo ≤ cfg.hi)
    (hmuLen : s.mu.length = cfg.action_size) (hstdLen : s.std.length = cfg.action_size)
    (hmu : ∀ x ∈ s.mu, RealB x) (hstd : ∀ x ∈ s.std, RealB x) :
    ∃ s', cemStep cfg score hExp zt s = .ok s' ∧
      s'.mu.length = cfg.action_size ∧ s'.std.length = cfg.action_size ∧
      (∀ x ∈ s'.mu, InB cfg.lo cfg.hi x) ∧
      (2 ≤ cfg.cem_elite → ∀ x ∈ s'.std, RealB x) := by
  have hrow := cemActions_row_inB cfg zt s hlh hmuLen hstdLen hmu hstd
  have hAlen := cemActions_length cfg zt s
  have hqlen : ((hExp.zip (cemActions cfg zt s)).map (fun p => score p.1 p.2)).length
      = cfg.num_cem := by
    rw [List.length_map, List.length_zip, hlen, hAlen, min_self]
  obtain ⟨idx, hidx, hidxlen, hidxmem⟩ :=
    cemTopk_ok cfg.cem_elite
      ((hExp.zip (cemActions cfg zt s)).map (fun p => score p.1 p.2))
      (by rw [hqlen]; exact hke)
  have helrow : ∀ r ∈ idx.map (fun i => (cemActions cfg zt s).getD i []),
      r.length = cfg.action_size ∧ ∀ x ∈ r, InB cfg.lo cfg.hi x := by
    intro r hr
    obtain ⟨i, hi, rfl⟩ := List.mem_map.mp hr
    have hilt : i < (cemActions cfg zt s).length := by
      rw [hAlen]
      have := hidxmem i hi
      rw [hqlen] at this
      exact this
    exact hrow _ (getD_mem _ _ _ hilt)
  have hellen : (idx.map (fun i => (cemActions cfg zt s).getD i [])).length
      = cfg.cem_elite := by rw [List.length_map, hidxlen]
  have helne : idx.map (fun i => (cemActions cfg zt s).getD i []) ≠ [] := by
    intro hc
    rw [hc] at hellen
    simp at hellen
    omega
  refine ⟨statsOf cfg (idx.map (fun i => (cemActions cfg zt s).getD i [])), ?_, ?_, ?_, ?_, ?_⟩
  · simp only [cemStep]
    rw [hidx]
  · simp [statsOf]
  · simp [statsOf]
  · intro x hx
    obtain ⟨d, hd, rfl⟩ := List.mem_map.mp hx
    have hdA : d < cfg.action_size := List.mem_range.mp hd
    apply fmean_inB
    · intro hc
      have := column_length (idx.map (fun i => (cemActions cfg zt s).getD i [])) d
      rw [hc, hellen] at this
      simp at this
      omega
    · intro y hy
      obtain ⟨r, hr, rfl⟩ := column_mem hy
      obtain ⟨hrlen, hrin⟩ := helrow r hr
      exact hrin _ (getD_mem r d none (by rw [hrlen]; exact hdA))
  · intro h2e x hx
    obtain ⟨d, hd, rfl⟩ := List.mem_map.mp hx
    have hdA : d < cfg.action_size := List.mem_range.mp hd
    apply fstdU_real
    · rw [column_length, hellen]
      exact h2e
    · intro y hy
      obtain ⟨r, hr, rfl⟩ := column_mem hy
      obtain ⟨hrlen, hrin⟩ := helrow r hr
      exact InB_real (hrin _ (getD_mem r d none (by rw [hrlen]; exact hdA)))

/-- Iterating CEM steps preserves success and well-shaped parameters when the
elite set has at least two members. -/
theorem cemLoop_ok {H : Type} (cfg : AgentCfg) (score : H → List F → F) (hExp : List H)
    (z : ℕ → ℕ → ℕ → ℚ)
    (hlen : hExp.length = cfg.num_cem)
    (hke : cfg.cem_elite ≤ cfg.num_cem)
    (h2e : 2 ≤ cfg.cem_elite)
    (hlh : cfg.lo ≤ cfg.hi) :
    ∀ (n t : ℕ) (s : CemState),
    s.mu.length = cfg.action_size → s.std.length = cfg.action_size →
    (∀ x ∈ s.mu, InB cfg.lo cfg.hi x) → (∀ x ∈ s.std, RealB x) →
    ∃ s', cemLoop cfg score hExp z t n s = .ok s' ∧
      s'.mu.length = cfg.action_size ∧ s'.std.length = cfg.action_size ∧
      (∀ x ∈ s'.mu, InB cfg.lo cfg.hi x) ∧ (∀ x ∈ s'.std, RealB x) := by
  intro n
  induction n with
  | zero =>
    intro t s h1 h2 h3 h4
    exact ⟨s, rfl, h1, h2, h3, h4⟩
  | succ m ih =>
    intro t s h1 h2 h3 h4
    obtain ⟨s1, hs1, hs1mu, hs1std, hs1in, hs1real⟩ :=
      cemStep_ok cfg score hExp (z t) s hlen hke (by omega) hlh h1 h2
        (fun x hx => InB_real (h3 x hx)) h4
    obtain ⟨s', hs', h1', h2', h3', h4'⟩ :=
      ih (t + 1) s1 hs1mu hs1std hs1in (hs1real h2e)
    refine ⟨s', ?_, h1', h2', h3', h4'⟩
    simp only [cemLoop]
    rw [hs1]
    exact hs'

/-- Expanding a singleton batch replicates the one hidden row. -/
theorem expandTo_single {H : Type} (h : H) (k : ℕ) :
    expandTo [h] k = .ok (List.replicate k h) := rfl

/-- The initial CEM state is well-shaped; its mean is the zero vector. -/
theorem initCemState_shape (cfg : AgentCfg) :
    (initCemState cfg).mu.length = cfg.action_size ∧
    (initCemState cfg).std.length = cfg.action_size ∧
    (∀ x ∈ (initCemState cfg).mu, x = some 0) ∧
    (∀ x ∈ (initCemState cfg).std, x = some 1) := by
  refine ⟨by simp [initCemState], by simp [initCemState], ?_, ?_⟩
  · intro x hx
    exact List.eq_of_mem_replicate hx
  · intro x hx
    exact List.eq_of_mem_replicate hx

/-- `getD` over a mapped range evaluates the function at the index. -/
theorem getD_map_range {β : Type _} (f : ℕ → β) (n i : ℕ) (d : β) (hi : i < n) :
    ((List.range n).map f).getD i d = f i := by
  rw [getD_map_eq (List.range n) f i d 0 (by simpa using hi), range_getD n i hi]

/-- `_uniform_optimizer`'s per-state body selects the candidate whose score
dominates every candidate score in the NaN-greatest order used by
`q.max(0)`. -/
theorem uniformPerState_spec {H : Type} (cfg : AgentCfg) (score : H → List F → F)
    (ui : ℕ → ℕ → ℚ) (h : H) (hn : 1 ≤ cfg.num_uniform) :
    ∃ j, j < cfg.num_uniform ∧
      uniformPerState cfg score ui h = .ok (uCand cfg ui j) ∧
      ∀ k, k < cfg.num_uniform →
        fleB (score h (uCand cfg ui k)) (score h (uCand cfg ui j)) = true := by
  have hn0 : cfg.num_uniform ≠ 0 := by omega
  have hq1len : ((List.range cfg.num_uniform).map (fun j => score h (uCand cfg ui j))).length
      = cfg.num_uniform := by simp
  have hq1ne : (List.range cfg.num_uniform).map (fun j => score h (uCand cfg ui j)) ≠ [] := by
    intro hc
    have h2 := congrArg List.length hc
    rw [hq1len] at h2
    simp at h2
    omega
  have hjlt : fMaxIdx ((List.range cfg.num_uniform).map (fun j => score h (uCand cfg ui j)))
      < cfg.num_uniform := by
    have h3 := fMaxIdx_lt _ hq1ne
    rw [hq1len] at h3
    exact h3
  have hunfold : uniformPerState cfg score ui h
      = .ok (((List.range cfg.num_uniform).map (uCand cfg ui)).getD
          (fMaxIdx ((List.range cfg.num_uniform).map (fun j => score h (uCand cfg ui j)))) []) := by
    simp only [uniformPerState, if_neg hn0, List.map_map]
    rfl
  refine ⟨_, hjlt, ?_, ?_⟩
  · rw [hunfold]
    congr 1
    exact getD_map_range (uCand cfg ui) _ _ [] hjlt
  · intro k hk
    have hmax := fMaxIdx_max ((List.range cfg.num_uniform).map (fun j => score h (uCand cfg ui j)))
      k (by rw [hq1len]; exact hk)
    rw [getD_map_range _ _ _ none hk, getD_map_range _ _ _ none hjlt] at hmax
    exact hmax

/-- Successful runs of the per-state loop of `_uniform_optimizer` produce one
output row per state, and the row at index `i` is exactly the per-state result
for state `i` computed from its own stream slice `u (t + i)`. -/
theorem uniformLoop_get {H : Type} (cfg : AgentCfg) (score : H → List F → F)
    (u : ℕ → ℕ → ℕ → ℚ) :
    ∀ (l : List H) (t : ℕ) (out : List (List F)),
    uniformLoop cfg score u t l = .ok out →
    out.length = l.length ∧
    ∀ (i : ℕ) (h : H), l.get? i = some h →
      ∃ a, uniformPerState cfg score (u (t + i)) h = .ok a ∧ out.get? i = some a
  | [], _, out, hok => by
    simp only [uniformLoop] at hok
    injection hok with h1
    subst h1
    exact ⟨rfl, fun i h hi => by simp at hi⟩
  | hd :: rest, t, out, hok => by
    simp only [uniformLoop] at hok
    cases hps : uniformPerState cfg score (u t) hd with
    | error e => rw [hps] at hok; exact Except.noConfusion hok
    | ok a =>
      rw [hps] at hok
      cases hrest : uniformLoop cfg score u (t + 1) rest with
      | error e => rw [hrest] at hok; exact Except.noConfusion hok
      | ok as =>
        rw [hrest] at hok
        injection hok with h1
        subst h1
        obtain ⟨hlen, hidx⟩ := uniformLoop_get cfg score u rest (t + 1) as hrest
        refine ⟨by simp [hlen], ?_⟩
        intro i h hi
        cases i with
        | zero =>
          rw [List.get?_cons_zero] at hi
          injection hi with h2
          subst h2
          exact ⟨a, by rw [Nat.add_zero]; exact hps, rfl⟩
        | succ i' =>
          rw [List.get?_cons_succ] at hi
          obtain ⟨a', ha', hout⟩ := hidx i' h hi
          refine ⟨a', ?_, hout⟩
          have harith : t + (i' + 1) = t + 1 + i' := by omega
          rw [harith]
          exact ha'

/-- With at least one candidate per state and an in-bounds uniform stream, the
per-state loop of `_uniform_optimizer` succeeds and every output component is
inside `[lo, hi]`. -/
theorem uniformLoop_bounds {H : Type} (cfg : AgentCfg) (score : H → List F → F)
    (u : ℕ → ℕ → ℕ → ℚ) (hn : 1 ≤ cfg.num_uniform)
    (hub : ∀ i j d, cfg.lo ≤ u i j d ∧ u i j d ≤ cfg.hi) :
    ∀ (l : List H) (t : ℕ),
    ∃ out, uniformLoop cfg score u t l = .ok out ∧ out.length = l.length ∧
      ∀ a ∈ out, a.length = cfg.action_size ∧ ∀ x ∈ a, InB cfg.lo cfg.hi x
  | [], _ => ⟨[], rfl, rfl, by intro a ha; simp at ha⟩
  | hd :: rest, t => by
    obtain ⟨j, hj, hps, _⟩ := uniformPerState_spec cfg score (u t) hd hn
    obtain ⟨out, hout, hlen, hmem⟩ := uniformLoop_bounds cfg score u hn hub rest (t + 1)
    refine ⟨uCand cfg (u t) j :: out, ?_, by simp [hlen], ?_⟩
    · simp only [uniformLoop]
      rw [hps, hout]
    · intro a ha
      rcases List.mem_cons.mp ha with ha | ha
      · subst ha
        constructor
        · simp [uCand]
        · intro x hx
          obtain ⟨d, hd2, rfl⟩ := List.mem_map.mp hx
          exact ⟨u t j d, rfl, (hub t j d).1, (hub t j d).2⟩
      · exact hmem a ha

/-- Adding NaN to anything is NaN. -/
theorem fadd_none (m : F) : fadd m none = none := by cases m <;> rfl

/-- `getD` inside a `replicate` returns the replicated element. -/
theorem getD_replicate {α : Type _} : ∀ (n : ℕ) (a : α) (i : ℕ) (d : α), i < n →
    (List.replicate n a).getD i d = a
  | 0, _, _, _, h => by omega
  | _ + 1, _, 0, _, _ => rfl
  | n + 1, a, i + 1, d, h => getD_replicate n a i d (by omega)

/-- With `cem_elite = 1` the elite set is a single candidate, so the unbiased
`torch.std` of the elite set is NaN in every dimension: the re-estimated `std`
is the all-NaN vector. -/
theorem cemStep_elite_one {H : Type} (cfg : AgentCfg) (score : H → List F → F) (hExp : List H)
    (zt : ℕ → ℕ → ℚ) (s : CemState)
    (hlen : hExp.length = cfg.num_cem)
    (he1 : cfg.cem_elite = 1) (hn1 : 1 ≤ cfg.num_cem) :
    ∃ s', cemStep cfg score hExp zt s = .ok s' ∧
      s'.mu.length = cfg.action_size ∧
      s'.std = List.replicate cfg.action_size none := by
  have hqlen : ((hExp.zip (cemActions cfg zt s)).map (fun p => score p.1 p.2)).length
      = cfg.num_cem := by
    rw [List.length_map, List.length_zip, hlen, cemActions_length, min_self]
  obtain ⟨idx, hidx, hidxlen, hidxmem⟩ := cemTopk_ok cfg.cem_elite
    ((hExp.zip (cemActions cfg zt s)).map (fun p => score p.1 p.2))
    (by rw [hqlen]; omega)
  obtain ⟨i0, hi0⟩ := List.length_eq_one.mp (by rw [hidxlen, he1])
  refine ⟨statsOf cfg (idx.map (fun i => (cemActions cfg zt s).getD i [])), ?_, ?_, ?_⟩
  · simp only [cemStep]
    rw [hidx]
  · simp [statsOf]
  · subst hi0
    refine List.eq_replicate_iff.mpr ⟨by simp [statsOf], ?_⟩
    intro b hb
    obtain ⟨d, hd, rfl⟩ := List.mem_map.mp hb
    exact fstdU_singleton _

/-- Once the `std` vector is all-NaN (and `cem_elite = 1`), the next iteration
samples only NaN candidates, so both re-estimated parameters are all-NaN. -/
theorem cemStep_nan {H : Type} (cfg : AgentCfg) (score : H → List F → F) (hExp : List H)
    (zt : ℕ → ℕ → ℚ) (s : CemState)
    (hlen : hExp.length = cfg.num_cem)
    (he1 : cfg.cem_elite = 1) (hn1 : 1 ≤ cfg.num_cem)
    (hstd : s.std = List.replicate cfg.action_size none) :
    ∃ s', cemStep cfg score hExp zt s = .ok s' ∧
      s'.mu = List.replicate cfg.action_size none ∧
      s'.std = List.replicate cfg.action_size none := by
  have hrownone : ∀ r ∈ cemActions cfg zt s, ∀ d, d < cfg.action_size → r.getD d none = none := by
    intro r hr d hd
    obtain ⟨c, hc, rfl⟩ := List.mem_map.mp hr
    rw [getD_map_range _ _ _ none hd, hstd, getD_replicate _ _ _ _ hd]
    have hg : gaussDraw (s.mu.getD d none) none (zt c d) = none := by
      unfold gaussDraw
      rw [show fmul none (some (zt c d)) = none from rfl]
      exact fadd_none _
    rw [hg]
    rfl
  have hqlen : ((hExp.zip (cemActions cfg zt s)).map (fun p => score p.1 p.2)).length
      = cfg.num_cem := by
    rw [List.length_map, List.length_zip, hlen, cemActions_length, min_self]
  obtain ⟨idx, hidx, hidxlen, hidxmem⟩ := cemTopk_ok cfg.cem_elite
    ((hExp.zip (cemActions cfg zt s)).map (fun p => score p.1 p.2))
    (by rw [hqlen]; omega)
  obtain ⟨i0, hi0⟩ := List.length_eq_one.mp (by rw [hidxlen, he1])
  have hi0lt : i0 < (cemActions cfg zt s).length := by
    rw [cemActions_length]
    have := hidxmem i0 (by rw [hi0]; exact List.mem_cons_self i0 [])
    rw [hqlen] at this
    exact this
  have hrowmem : (cemActions cfg zt s).getD i0 [] ∈ cemActions cfg zt s :=
    getD_mem _ _ _ hi0lt
  refine ⟨statsOf cfg (idx.map (fun i => (cemActions cfg zt s).getD i [])), ?_, ?_, ?_⟩
  · simp only [cemStep]
    rw [hidx]
  · subst hi0
    refine List.eq_replicate_iff.mpr ⟨by simp [statsOf], ?_⟩
    intro b hb
    obtain ⟨d, hd, rfl⟩ := List.mem_map.mp hb
    have hdA : d < cfg.action_size := List.mem_range.mp hd
    have hcol : column (List.map (fun i => (cemActions cfg zt s).getD i []) [i0]) d
        = [none] := by
      show [((cemActions cfg zt s).getD i0 []).getD d none] = [none]
      rw [hrownone _ hrowmem d hdA]
    rw [hcol]
    rfl
  · subst hi0
    refine List.eq_replicate_iff.mpr ⟨by simp [statsOf], ?_⟩
    intro b hb
    obtain ⟨d, hd, rfl⟩ := List.mem_map.mp hb
    exact fstdU_singleton _

/-- All-NaN `std` is absorbing for the CEM loop: every further iteration keeps
`std` all-NaN, and after at least one more iteration `mu` is all-NaN too. -/
theorem cemLoop_nan {H : Type} (cfg : AgentCfg) (score : H → List F → F) (hExp : List H)
    (z : ℕ → ℕ → ℕ → ℚ)
    (hlen : hExp.length = cfg.num_cem)
    (he1 : cfg.cem_elite = 1) (hn1 : 1 ≤ cfg.num_cem) :
    ∀ (n t : ℕ) (s : CemState), s.std = List.replicate cfg.action_size none →
    ∃ s', cemLoop cfg score hExp z t n s = .ok s' ∧
      s'.std = List.replicate cfg.action_size none ∧
      (1 ≤ n → s'.mu = List.replicate cfg.action_size none) ∧ (n = 0 → s' = s) := by
  intro n
  induction n with
  | zero =>
    intro t s hstd
    exact ⟨s, rfl, hstd, fun hc => absurd hc (by omega), fun _ => rfl⟩
  | succ m ih =>
    intro t s hstd
    obtain ⟨s1, hs1, hs1mu, hs1std⟩ := cemStep_nan cfg score hExp (z t) s hlen he1 hn1 hstd
    obtain ⟨s', hs', hstd', hmu', h0'⟩ := ih (t + 1) s1 hs1std
    refine ⟨s', ?_, hstd', fun _ => ?_, fun hc => absurd hc (by omega)⟩
    · simp only [cemLoop]
      rw [hs1]
      exact hs'
    · rcases Nat.eq_zero_or_pos m with hm | hm
      · rw [h0' hm, hs1mu]
      · exact hmu' hm

/-- C6: when `cem_iter = 0` the loop body of `_cem_optimizer` never runs and
the optimizer returns the initial sampling distribution's mean — the zero
vector of dimension `action_size` — unchanged. -/
theorem cem_iter_zero_returns_zero {H : Type} (cfg : AgentCfg) (score : H → List F → F)
    (z : ℕ → ℕ → ℕ → ℚ) (h : H) (h0 : cfg.cem_iter = 0) :
    cem_optimizer cfg score z [h] = .ok (List.replicate cfg.action_size (some 0)) := by
  have he : cem_optimizer cfg score z [h]
      = match cemLoop cfg score (List.replicate cfg.num_cem h) z 0 cfg.cem_iter
          (initCemState cfg) with
        | .error e => .error e
        | .ok s => .ok s.mu := rfl
  rw [he, h0]
  rfl

/-- C6 witness: a concrete zero-iteration configuration returning the zero
vector. -/
theorem cem_iter_zero_returns_zero_witness :
    (agentInit 2 1 1 0 1 (-1) 1).cem_iter = 0 ∧
    cem_optimizer (agentInit 2 1 1 0 1 (-1) 1) scoreHead zZero [()] =
      .ok (List.replicate 2 (some 0)) :=
  ⟨rfl, cem_iter_zero_returns_zero (agentInit 2 1 1 0 1 (-1) 1) scoreHead zZero () rfl⟩

/-- C9: `_cem_optimizer` requires its state batch to have size exactly one:
for every batch whose size is greater than one and different from `num_cem`,
the broadcast `hidden.expand(num_cem, -1, -1, -1)` fails, so the call raises
an error instead of returning per-state actions. -/
theorem cem_rejects_multi_state_batch {H : Type} (cfg : AgentCfg) (score : H → List F → F)
    (z : ℕ → ℕ → ℕ → ℚ) (hidden : List H)
    (hb : 1 < hidden.length) (hne : hidden.length ≠ cfg.num_cem) :
    cem_optimizer cfg score z hidden = .error .expandMismatch := by
  cases hidden with
  | nil => simp at hb
  | cons a rest =>
    cases rest with
    | nil => simp at hb
    | cons b t =>
      have hx : expandTo (a :: b :: t) cfg.num_cem = .error .expandMismatch := by
        show (if (a :: b :: t).length = cfg.num_cem then
            (Except.ok (a :: b :: t) : Except OptErr (List H))
          else .error .expandMismatch) = .error .expandMismatch
        rw [if_neg hne]
      simp only [cem_optimizer]
      rw [hx]

/-- C9 witness: a two-state batch with `num_cem = 3` raises the broadcast
error. -/
theorem cem_rejects_multi_state_batch_witness :
    1 < ([(), ()] : List Unit).length ∧
    ([(), ()] : List Unit).length ≠ (agentInit 1 1 3 1 1 (-1) 1).num_cem ∧
    cem_optimizer (agentInit 1 1 3 1 1 (-1) 1) scoreHead zZero [(), ()] =
      .error .expandMismatch :=
  ⟨by decide, by decide,
    cem_rejects_multi_state_batch (agentInit 1 1 3 1 1 (-1) 1) scoreHead zZero [(), ()]
      (by decide) (by decide)⟩

/-- C10: `Agent.forward` with an explicit action batch scores the supplied
actions exactly as given: they are not clamped into `[lo, hi]`, not validated
against the configured bounds, and not modified before `_forward_q`.  The
closed conjuncts exercise this on the out-of-bounds component `5` (bounds
`[-1, 1]`): the scorer receives the raw `5`. -/
theorem forward_scores_action_as_given :
    (∀ (H : Type) (cfg : AgentCfg) (score : H → List F → F) (u : ℕ → ℕ → ℕ → ℚ)
      (hidden : List H) (a : List (List F)),
      forward cfg score u hidden (some a) = .ok (forward_q score hidden a)) ∧
    forward (agentInit 1 1 1 0 1 (-1) 1) scoreHead uZero [()] (some [[some 5]])
      = .ok [some 5] ∧
    ¬ InB (-1) 1 (some 5) := by
  refine ⟨fun H cfg score u hidden a => rfl, rfl, ?_⟩
  rintro ⟨q, hq, h1, h2⟩
  injection hq with hq
  subst hq
  norm_num at h2

/-- C7: `Agent.forward` with the action batch omitted first obtains the
per-state optimal actions from `_uniform_optimizer` — never from
`_cem_optimizer` — and then scores exactly that output, so the result equals
scoring the uniform optimizer's output for the same state batch. -/
theorem forward_uses_uniform_optimizer {H : Type} (cfg : AgentCfg) (score : H → List F → F)
    (u : ℕ → ℕ → ℕ → ℚ) (hidden : List H) (acts : List (List F))
    (hok : uniform_optimizer cfg score u hidden = .ok acts) :
    forward cfg score u hidden none = .ok (forward_q score hidden acts) := by
  simp only [forward]
  rw [hok]

/-- C7 witness at a concrete one-state batch. -/
theorem forward_uses_uniform_optimizer_witness :
    uniform_optimizer (agentInit 1 1 1 0 1 (-1) 1) scoreHead uZero [()] = .ok [[some 0]] ∧
    forward (agentInit 1 1 1 0 1 (-1) 1) scoreHead uZero [()] none
      = .ok (forward_q scoreHead [()] [[some 0]]) :=
  ⟨rfl, forward_uses_uniform_optimizer (agentInit 1 1 1 0 1 (-1) 1) scoreHead uZero [()]
    [[some 0]] rfl⟩

unseal Rat.add Rat.mul Rat.inv Rat.sub in
/-- C1 counterexample: a concrete run with the valid configuration
action_size 1, num_cem 2, cem_iter 2, cem_elite 1, bounds `[-1, 1]`.  The
elite set of iteration one is a single candidate, its unbiased std is NaN, no
positive floor is applied, and the returned action vector is `[NaN]` —
refuting the claim that the std is clamped so that no NaN is ever produced in
the returned action vector. -/
theorem cem_nan_counterexample :
    cem_optimizer (agentInit 1 1 2 2 1 (-1) 1) scoreHead zZero [()] = .ok [none] ∧
    ¬ RealB none := by
  refine ⟨by decide, ?_⟩
  rintro ⟨q, hq⟩
  exact Option.noConfusion hq

/-- C2 counterexample: `cem_elite = 3 > num_cem = 2` is an invalid
combination, yet `Agent.__init__` stores it without complaint and, with
`cem_iter = 0`, the optimizer call returns normally — no configuration error
is signalled at construction or at call entry. -/
theorem config_error_counterexample :
    (agentInit 1 1 2 0 3 (-1) 1).num_cem < (agentInit 1 1 2 0 3 (-1) 1).cem_elite ∧
    cem_optimizer (agentInit 1 1 2 0 3 (-1) 1) scoreHead zZero [()] = .ok [some 0] :=
  ⟨by decide, rfl⟩

/-- C3 counterexample: the configuration action_size 1, num_uniform 1,
num_cem 1, cem_iter 0, cem_elite 1, bounds `[1/2, 1]` satisfies every
validity condition of the claim, yet `_cem_optimizer` returns the initial
zero mean, whose single component lies below `lo = 1/2`. -/
theorem cem_bounds_counterexample :
    (agentInit 1 1 1 0 1 (1/2) 1).lo < (agentInit 1 1 1 0 1 (1/2) 1).hi ∧
    cem_optimizer (agentInit 1 1 1 0 1 (1/2) 1) scoreHead zZero [()] = .ok [some 0] ∧
    ¬ InB (1/2) 1 (some 0) := by
  refine ⟨by norm_num [agentInit], rfl, ?_⟩
  rintro ⟨q, hq, h1, h2⟩
  injection hq with hq
  subst hq
  norm_num at h1

/-- C1 (amended): `_cem_optimizer` applies no positive floor to the elite-set
std.  Whenever the elite set is degenerate because `cem_elite = 1` and at
least two iterations run, the std re-estimated by the first iteration is NaN
in every dimension, the NaN propagates through every later sampling round,
and the returned action vector is the all-NaN vector. -/
theorem cem_std_collapse_nan {H : Type} (cfg : AgentCfg) (score : H → List F → F)
    (z : ℕ → ℕ → ℕ → ℚ) (h : H)
    (he1 : cfg.cem_elite = 1) (hn1 : 1 ≤ cfg.num_cem) (hit : 2 ≤ cfg.cem_iter) :
    cem_optimizer cfg score z [h] = .ok (List.replicate cfg.action_size none) := by
  obtain ⟨m, hm⟩ : ∃ m, cfg.cem_iter = m + 2 := ⟨cfg.cem_iter - 2, by omega⟩
  have hlen : (List.replicate cfg.num_cem h).length = cfg.num_cem := by simp
  obtain ⟨s1, hs1, _, hs1std⟩ :=
    cemStep_elite_one cfg score (List.replicate cfg.num_cem h) (z 0) (initCemState cfg)
      hlen he1 hn1
  obtain ⟨s', hs', hstd', hmu', _⟩ :=
    cemLoop_nan cfg score (List.replicate cfg.num_cem h) z hlen he1 hn1 (m + 1) 1 s1 hs1std
  have hloop : cemLoop cfg score (List.replicate cfg.num_cem h) z 0 (m + 2) (initCemState cfg)
      = .ok s' := by
    show (match cemStep cfg score (List.replicate cfg.num_cem h) (z 0) (initCemState cfg) with
      | Except.error e => Except.error e
      | Except.ok s1x => cemLoop cfg score (List.replicate cfg.num_cem h) z 1 (m + 1) s1x)
      = Except.ok s'
    rw [hs1]
    exact hs'
  have he : cem_optimizer cfg score z [h]
      = match cemLoop cfg score (List.replicate cfg.num_cem h) z 0 cfg.cem_iter
          (initCemState cfg) with
        | .error e => .error e
        | .ok s2 => .ok s2.mu := rfl
  rw [he, hm, hloop]
  show Except.ok s'.mu = Except.ok (List.replicate cfg.action_size none)
  rw [hmu' (by omega)]

/-- C1 witness: the amended theorem applied to the counterexample's concrete
configuration. -/
theorem cem_std_collapse_nan_witness :
    (agentInit 1 1 2 2 1 (-1) 1).cem_elite = 1 ∧
    1 ≤ (agentInit 1 1 2 2 1 (-1) 1).num_cem ∧
    2 ≤ (agentInit 1 1 2 2 1 (-1) 1).cem_iter ∧
    cem_optimizer (agentInit 1 1 2 2 1 (-1) 1) scoreHead zZero [()]
      = .ok (List.replicate 1 none) :=
  ⟨rfl, by decide, by decide,
    cem_std_collapse_nan (agentInit 1 1 2 2 1 (-1) 1) scoreHead zZero () rfl
      (by decide) (by decide)⟩

/-- C2 (amended): the agent performs no validation at construction or at
optimizer entry.  With `cem_elite > num_cem` the CEM call fails only when the
first iteration reaches `torch.topk` (so only when `cem_iter ≥ 1`), and with
`cem_iter = 0` the invalid combination is never detected: the call succeeds
and returns the initial mean. -/
theorem cem_invalid_elite_mid_iteration {H : Type} (cfg : AgentCfg) (score : H → List F → F)
    (z : ℕ → ℕ → ℕ → ℚ) (h : H) (hgt : cfg.num_cem < cfg.cem_elite) :
    (1 ≤ cfg.cem_iter → cem_optimizer cfg score z [h] = .error .topkTooLarge) ∧
    (cfg.cem_iter = 0 → cem_optimizer cfg score z [h]
      = .ok (List.replicate cfg.action_size (some 0))) := by
  have he : cem_optimizer cfg score z [h]
      = match cemLoop cfg score (List.replicate cfg.num_cem h) z 0 cfg.cem_iter
          (initCemState cfg) with
        | .error e => .error e
        | .ok s2 => .ok s2.mu := rfl
  constructor
  · intro hit
    obtain ⟨m, hm⟩ : ∃ m, cfg.cem_iter = m + 1 := ⟨cfg.cem_iter - 1, by omega⟩
    have hqlen : (((List.replicate cfg.num_cem h).zip
        (cemActions cfg (z 0) (initCemState cfg))).map (fun p => score p.1 p.2)).length
        = cfg.num_cem := by
      rw [List.length_map, List.length_zip, List.length_replicate, cemActions_length, min_self]
    have hcond : ¬ (cfg.cem_elite ≤ (((List.replicate cfg.num_cem h).zip
        (cemActions cfg (z 0) (initCemState cfg))).map (fun p => score p.1 p.2)).length) := by
      rw [hqlen]
      omega
    have hstep : cemStep cfg score (List.replicate cfg.num_cem h) (z 0) (initCemState cfg)
        = .error .topkTooLarge := by
      simp only [cemStep, cemTopk]
      rw [if_neg hcond]
    have hloop : cemLoop cfg score (List.replicate cfg.num_cem h) z 0 (m + 1) (initCemState cfg)
        = .error .topkTooLarge := by
      show (match cemStep cfg score (List.replicate cfg.num_cem h) (z 0) (initCemState cfg) with
        | Except.error e => Except.error e
        | Except.ok s1x => cemLoop cfg score (List.replicate cfg.num_cem h) z 1 m s1x)
        = Except.error OptErr.topkTooLarge
      rw [hstep]
    rw [he, hm, hloop]
  · intro h0
    rw [he, h0]
    rfl

/-- C2 witness: `cem_elite = 3 > num_cem = 2` with one iteration fails at the
topk step inside the loop, not at entry. -/
theorem cem_invalid_elite_mid_iteration_witness :
    (agentInit 1 1 2 1 3 (-1) 1).num_cem < (agentInit 1 1 2 1 3 (-1) 1).cem_elite ∧
    ((1 ≤ (agentInit 1 1 2 1 3 (-1) 1).cem_iter →
      cem_optimizer (agentInit 1 1 2 1 3 (-1) 1) scoreHead zZero [()]
        = .error .topkTooLarge) ∧
    ((agentInit 1 1 2 1 3 (-1) 1).cem_iter = 0 →
      cem_optimizer (agentInit 1 1 2 1 3 (-1) 1) scoreHead zZero [()]
        = .ok (List.replicate 1 (some 0)))) :=
  ⟨by decide,
    cem_invalid_elite_mid_iteration (agentInit 1 1 2 1 3 (-1) 1) scoreHead zZero () (by decide)⟩

/-- C3 (amended): with a valid configuration (`lo ≤ hi`, `num_uniform ≥ 1`,
`1 ≤ cem_elite ≤ num_cem`) and the in-bounds uniform stream guaranteed by
`uniform_`, every component of every `_uniform_optimizer` action lies inside
`[lo, hi]`; the same holds for `_cem_optimizer` except in the two situations
the counterexample and the C1 analysis force, which are excluded by requiring
`lo ≤ 0 ≤ hi` when `cem_iter = 0` (the zero-iteration result is the initial
zero mean) and `cem_elite ≥ 2` when `cem_iter ≥ 2` (a size-one elite set
makes the std, and hence the result, NaN). -/
theorem optimizer_outputs_in_bounds {H : Type} (cfg : AgentCfg) (score : H → List F → F)
    (z : ℕ → ℕ → ℕ → ℚ) (u : ℕ → ℕ → ℕ → ℚ) (hidden : List H) (h : H)
    (hlh : cfg.lo ≤ cfg.hi)
    (hnu : 1 ≤ cfg.num_uniform)
    (hub : ∀ i j d, cfg.lo ≤ u i j d ∧ u i j d ≤ cfg.hi)
    (he1 : 1 ≤ cfg.cem_elite) (hke : cfg.cem_elite ≤ cfg.num_cem)
    (hz : cfg.cem_iter = 0 → cfg.lo ≤ 0 ∧ 0 ≤ cfg.hi)
    (hdeg : 2 ≤ cfg.cem_iter → 2 ≤ cfg.cem_elite) :
    (∃ out, uniform_optimizer cfg score u hidden = .ok out ∧
      out.length = hidden.length ∧
      ∀ a ∈ out, a.length = cfg.action_size ∧ ∀ x ∈ a, InB cfg.lo cfg.hi x) ∧
    (∃ act, cem_optimizer cfg score z [h] = .ok act ∧ act.length = cfg.action_size ∧
      ∀ x ∈ act, InB cfg.lo cfg.hi x) := by
  constructor
  · exact uniformLoop_bounds cfg score u hnu hub hidden 0
  · have hlen : (List.replicate cfg.num_cem h).length = cfg.num_cem := by simp
    have he : cem_optimizer cfg score z [h]
        = match cemLoop cfg score (List.replicate cfg.num_cem h) z 0 cfg.cem_iter
            (initCemState cfg) with
          | .error e => .error e
          | .ok s2 => .ok s2.mu := rfl
    obtain ⟨hiLen, hsLen, hmu0, hstd1⟩ := initCemState_shape cfg
    rcases Nat.lt_or_ge cfg.cem_iter 2 with hlt | hge
    · rcases Nat.eq_zero_or_pos cfg.cem_iter with h0 | h1
      · obtain ⟨hlo0, h0hi⟩ := hz h0
        refine ⟨(initCemState cfg).mu, ?_, hiLen, ?_⟩
        · rw [he, h0]
          rfl
        · intro x hx
          rw [hmu0 x hx]
          exact ⟨0, rfl, hlo0, h0hi⟩
      · have h1' : cfg.cem_iter = 1 := by omega
        obtain ⟨s1, hs1, hs1mu, hs1stdLen, hs1in, hs1real⟩ :=
          cemStep_ok cfg score (List.replicate cfg.num_cem h) (z 0) (initCemState cfg)
            hlen hke he1 hlh hiLen hsLen
            (fun x hx => ⟨0, hmu0 x hx⟩) (fun x hx => ⟨1, hstd1 x hx⟩)
        refine ⟨s1.mu, ?_, hs1mu, hs1in⟩
        have hloop : cemLoop cfg score (List.replicate cfg.num_cem h) z 0 1 (initCemState cfg)
            = .ok s1 := by
          show (match cemStep cfg score (List.replicate cfg.num_cem h) (z 0)
              (initCemState cfg) with
            | Except.error e => Except.error e
            | Except.ok s1x => cemLoop cfg score (List.replicate cfg.num_cem h) z 1 0 s1x)
            = Except.ok s1
          rw [hs1]
          rfl
        rw [he, h1', hloop]
    · have h2e := hdeg hge
      obtain ⟨m, hm⟩ : ∃ m, cfg.cem_iter = m + 1 := ⟨cfg.cem_iter - 1, by omega⟩
      obtain ⟨s1, hs1, hs1mu, hs1stdLen, hs1in, hs1real⟩ :=
        cemStep_ok cfg score (List.replicate cfg.num_cem h) (z 0) (initCemState cfg)
          hlen hke he1 hlh hiLen hsLen
          (fun x hx => ⟨0, hmu0 x hx⟩) (fun x hx => ⟨1, hstd1 x hx⟩)
      obtain ⟨s', hs', hmuLen', hstdLen', hin', hreal'⟩ :=
        cemLoop_ok cfg score (List.replicate cfg.num_cem h) z hlen hke h2e hlh m 1 s1
          hs1mu hs1stdLen hs1in (hs1real h2e)
      refine ⟨s'.mu, ?_, hmuLen', hin'⟩
      have hloop : cemLoop cfg score (List.replicate cfg.num_cem h) z 0 (m + 1)
          (initCemState cfg) = .ok s' := by
        show (match cemStep cfg score (List.replicate cfg.num_cem h) (z 0)
            (initCemState cfg) with
          | Except.error e => Except.error e
          | Except.ok s1x => cemLoop cfg score (List.replicate cfg.num_cem h) z 1 m s1x)
          = Except.ok s'
        rw [hs1]
        exact hs'
      rw [he, hm, hloop]

/-- C3 witness: a concrete one-iteration configuration with bounds `[-1, 1]`
and the zero uniform stream. -/
theorem optimizer_outputs_in_bounds_witness :
    ((agentInit 1 1 1 1 1 (-1) 1).lo ≤ (agentInit 1 1 1 1 1 (-1) 1).hi ∧
      1 ≤ (agentInit 1 1 1 1 1 (-1) 1).num_uniform) ∧
    (∃ out, uniform_optimizer (agentInit 1 1 1 1 1 (-1) 1) scoreHead uZero [()] = .ok out ∧
      out.length = ([()] : List Unit).length ∧
      ∀ a ∈ out, a.length = (agentInit 1 1 1 1 1 (-1) 1).action_size ∧
        ∀ x ∈ a, InB (agentInit 1 1 1 1 1 (-1) 1).lo (agentInit 1 1 1 1 1 (-1) 1).hi x) ∧
    (∃ act, cem_optimizer (agentInit 1 1 1 1 1 (-1) 1) scoreHead zZero [()] = .ok act ∧
      act.length = (agentInit 1 1 1 1 1 (-1) 1).action_size ∧
      ∀ x ∈ act, InB (agentInit 1 1 1 1 1 (-1) 1).lo (agentInit 1 1 1 1 1 (-1) 1).hi x) :=
  ⟨⟨by norm_num [agentInit], by decide⟩,
    optimizer_outputs_in_bounds (agentInit 1 1 1 1 1 (-1) 1) scoreHead zZero uZero [()] ()
      (by norm_num [agentInit]) (by decide)
      (fun i j d => ⟨by norm_num [agentInit, uZero], by norm_num [agentInit, uZero]⟩)
      (by decide) (by decide)
      (fun hc => absurd hc (by decide))
      (fun hc => absurd hc (by decide))⟩

/-- Pointwise-equal functions map lists identically. -/
theorem listMapCongr {α β : Type _} : ∀ (l : List α) (f g : α → β),
    (∀ a ∈ l, f a = g a) → l.map f = l.map g
  | [], _, _, _ => rfl
  | x :: t, f, g, h => by
    simp only [List.map_cons]
    rw [h x (List.mem_cons_self x t), listMapCongr t f g (fun a ha => h a (List.mem_cons_of_mem x ha))]

/-- C5: on a successful run, `_uniform_optimizer` returns exactly one action
vector per input state, and for every state index `i` the returned vector is
one of the `num_uniform` candidates drawn for that state, whose score
dominates every candidate score for that state in the order used by
`q.max(0)` (on NaN-free scores this is the ordinary maximum). -/
theorem uniform_returns_argmax {H : Type} (cfg : AgentCfg) (score : H → List F → F)
    (u : ℕ → ℕ → ℕ → ℚ) (hidden : List H) (out : List (List F))
    (hnu : 1 ≤ cfg.num_uniform)
    (hok : uniform_optimizer cfg score u hidden = .ok out) :
    out.length = hidden.length ∧
    ∀ (i : ℕ) (h : H), hidden.get? i = some h →
      ∃ j, j < cfg.num_uniform ∧ out.get? i = some (uCand cfg (u i) j) ∧
        ∀ k, k < cfg.num_uniform →
          fleB (score h (uCand cfg (u i) k)) (score h (uCand cfg (u i) j)) = true := by
  obtain ⟨hlenr, hidxr⟩ := uniformLoop_get cfg score u hidden 0 out hok
  refine ⟨hlenr, ?_⟩
  intro i h hi
  obtain ⟨a, ha, hout⟩ := hidxr i h hi
  rw [Nat.zero_add] at ha
  obtain ⟨j, hj, hps, hmax⟩ := uniformPerState_spec cfg score (u i) h hnu
  rw [hps] at ha
  injection ha with ha
  subst ha
  exact ⟨j, hj, hout, hmax⟩

unseal Rat.add Rat.mul Rat.inv Rat.sub in
/-- C5 witness: one state, two candidates, the second scoring higher. -/
theorem uniform_returns_argmax_witness :
    (1 ≤ (agentInit 1 2 1 0 1 (-1) 1).num_uniform ∧
      uniform_optimizer (agentInit 1 2 1 0 1 (-1) 1) scoreHead uHalf [()]
        = .ok [[some (1/2)]]) ∧
    ([[some (1/2)]].length = ([()] : List Unit).length ∧
      ∀ (i : ℕ) (h : Unit), ([()] : List Unit).get? i = some h →
        ∃ j, j < (agentInit 1 2 1 0 1 (-1) 1).num_uniform ∧
          ([[some (1/2)]] : List (List F)).get? i
            = some (uCand (agentInit 1 2 1 0 1 (-1) 1) (uHalf i) j) ∧
          ∀ k, k < (agentInit 1 2 1 0 1 (-1) 1).num_uniform →
            fleB (scoreHead h (uCand (agentInit 1 2 1 0 1 (-1) 1) (uHalf i) k))
              (scoreHead h (uCand (agentInit 1 2 1 0 1 (-1) 1) (uHalf i) j)) = true) :=
  ⟨⟨by decide, by decide⟩,
    uniform_returns_argmax (agentInit 1 2 1 0 1 (-1) 1) scoreHead uHalf [()] [[some (1/2)]]
      (by decide) (by decide)⟩

/-- C8: the `_uniform_optimizer` result at state index `i` depends only on
that state's embedding and that state's own candidate draws: two runs whose
embeddings and stream slices agree at `i` return the same action at `i`,
regardless of the other states in either batch.  The batch result is a
pointwise map over state indices, so no ordering between the per-state
optimizations can influence it. -/
theorem uniform_state_independence {H : Type} (cfg : AgentCfg) (score : H → List F → F)
    (u1 u2 : ℕ → ℕ → ℕ → ℚ) (h1 h2 : List H) (i : ℕ) (out1 out2 : List (List F))
    (e1 : uniform_optimizer cfg score u1 h1 = .ok out1)
    (e2 : uniform_optimizer cfg score u2 h2 = .ok out2)
    (hsame : h1.get? i = h2.get? i)
    (husame : ∀ j d, u1 i j d = u2 i j d)
    (hi : i < h1.length) :
    out1.get? i = out2.get? i := by
  obtain ⟨x, hx⟩ : ∃ x, h1.get? i = some x := by
    cases hq : h1.get? i with
    | none => exact absurd (List.get?_eq_none.mp hq) (by omega)
    | some x => exact ⟨x, rfl⟩
  obtain ⟨_, hidx1⟩ := uniformLoop_get cfg score u1 h1 0 out1 e1
  obtain ⟨_, hidx2⟩ := uniformLoop_get cfg score u2 h2 0 out2 e2
  obtain ⟨a1, ha1, ho1⟩ := hidx1 i x hx
  obtain ⟨a2, ha2, ho2⟩ := hidx2 i x (by rw [← hsame]; exact hx)
  rw [Nat.zero_add] at ha1 ha2
  have hcand : ∀ j, uCand cfg (u1 i) j = uCand cfg (u2 i) j := by
    intro j
    unfold uCand
    exact listMapCongr _ _ _ (fun d _ => by rw [husame j d])
  have hps : uniformPerState cfg score (u1 i) x = uniformPerState cfg score (u2 i) x := by
    unfold uniformPerState
    rw [listMapCongr (List.range cfg.num_uniform) (uCand cfg (u1 i)) (uCand cfg (u2 i))
      (fun j _ => hcand j)]
  rw [hps, ha2] at ha1
  injection ha1 with ha
  rw [ho1, ho2, ha]

unseal Rat.add Rat.mul Rat.inv Rat.sub in
/-- C8 witness: two runs over different two-state batches and streams that
agree only at index 0 return the same action at index 0. -/
theorem uniform_state_independence_witness :
    (uniform_optimizer (agentInit 1 1 1 0 1 (-1) 1) scoreState uZero [(1 : ℚ), 2]
        = .ok [[some 0], [some 0]] ∧
      uniform_optimizer (agentInit 1 1 1 0 1 (-1) 1) scoreState uSplit [(1 : ℚ), 5]
        = .ok [[some 0], [some (1/4)]] ∧
      ([(1 : ℚ), 2].get? 0 = [(1 : ℚ), 5].get? 0) ∧
      (∀ j d, uZero 0 j d = uSplit 0 j d) ∧ 0 < [(1 : ℚ), 2].length) ∧
    ([[some 0], [some 0]] : List (List F)).get? 0
      = ([[some 0], [some (1/4)]] : List (List F)).get? 0 :=
  ⟨⟨by decide, by decide, rfl, fun _ _ => rfl, by decide⟩,
    uniform_state_independence (agentInit 1 1 1 0 1 (-1) 1) scoreState uZero uSplit
      [(1 : ℚ), 2] [(1 : ℚ), 5] 0 [[some 0], [some 0]] [[some 0], [some (1/4)]]
      (by decide) (by decide) rfl (fun _ _ => rfl) (by decide)⟩

/-- One iteration of the source CEM loop on a batch expanded from a single
embedding computes exactly one iteration of the spec's §4.2 algorithm. -/
theorem cemSpecStep_eq {H : Type} (cfg : AgentCfg) (score : H → List F → F) (h : H)
    (zt : ℕ → ℕ → ℚ) (s : CemState) :
    cemStep cfg score (List.replicate cfg.num_cem h) zt s
      = Except.map (fun p => CemState.mk p.1 p.2) (cemSpecStep cfg score h zt s.mu s.std) := by
  simp only [cemStep, cemSpecStep, cemActions, gaussDraw, statsOf]
  cases ht : cemTopk cfg.cem_elite
    (((List.replicate cfg.num_cem h).zip
      ((List.range cfg.num_cem).map (fun c =>
        (List.range cfg.action_size).map (fun d =>
          fclamp cfg.lo cfg.hi (fadd (s.mu.getD d none)
            (fmul (s.std.getD d none) (some (zt c d)))))))).map (fun p => score p.1 p.2)) with
  | error e => rfl
  | ok idx => rfl

/-- The source CEM loop, projected to its returned mean, coincides with the
spec's §4.2 loop at every iteration count. -/
theorem cemSpecLoop_eq {H : Type} (cfg : AgentCfg) (score : H → List F → F) (h : H)
    (z : ℕ → ℕ → ℕ → ℚ) :
    ∀ (n t : ℕ) (s : CemState),
    (match cemLoop cfg score (List.replicate cfg.num_cem h) z t n s with
      | .error e => .error e
      | .ok s2 => .ok s2.mu)
      = cemSpecLoop cfg score h z t n (s.mu, s.std)
  | 0, _, _ => rfl
  | n + 1, t, s => by
    have hstep := cemSpecStep_eq cfg score h (z t) s
    show (match (match cemStep cfg score (List.replicate cfg.num_cem h) (z t) s with
        | Except.error e => Except.error e
        | Except.ok s1 => cemLoop cfg score (List.replicate cfg.num_cem h) z (t + 1) n s1) with
      | Except.error e => Except.error e
      | Except.ok s2 => Except.ok s2.mu)
      = (match cemSpecStep cfg score h (z t) s.mu s.std with
        | Except.error e => Except.error e
        | Except.ok p => cemSpecLoop cfg score h z (t + 1) n p)
    cases hs : cemSpecStep cfg score h (z t) s.mu s.std with
    | error e =>
      have hce : cemStep cfg score (List.replicate cfg.num_cem h) (z t) s = .error e := by
        rw [hstep, hs]
        rfl
      rw [hce]
    | ok p =>
      have hce : cemStep cfg score (List.replicate cfg.num_cem h) (z t) s = .ok ⟨p.1, p.2⟩ := by
        rw [hstep, hs]
        rfl
      rw [hce]
      exact cemSpecLoop_eq cfg score h z n (t + 1) ⟨p.1, p.2⟩

/-- C4: given exactly one state embedding, `_cem_optimizer` computes exactly
the spec's §4.2 algorithm: `cem_iter` iterations, each drawing `num_cem`
candidates from the per-dimension Gaussian, clamping every component into
`[lo, hi]`, scoring all candidates in one batched call against the replicated
embedding, taking the `cem_elite` highest-scoring candidates, re-estimating
mean and std as the per-dimension sample statistics of that elite set, and
finally returning the mean of the final-iteration sampling distribution. -/
theorem cem_matches_spec_algorithm {H : Type} (cfg : AgentCfg) (score : H → List F → F)
    (z : ℕ → ℕ → ℕ → ℚ) (h : H) :
    cem_optimizer cfg score z [h] = cemSpecAlg cfg score z h := by
  have he : cem_optimizer cfg score z [h]
      = match cemLoop cfg score (List.replicate cfg.num_cem h) z 0 cfg.cem_iter
          (initCemState cfg) with
        | .error e => .error e
        | .ok s2 => .ok s2.mu := rfl
  rw [he]
  exact cemSpecLoop_eq cfg score h z cfg.cem_iter 0 (initCemState cfg)
